import Mathlib

set_option maxRecDepth 100000

/-!
Verification of the SLIP-0044 table generator (`src/bin/parse_coins.rs`).

The generator's pipeline is embedded shallowly:
* the raw markdown text is a `String`, split into lines on the newline character
  exactly as `markdown_content.split("\n")` does;
* each accepted row becomes a `CoinType` record (`filter_map` body of `main`);
* Pass A (identity merge) and Pass B (name-collision disambiguation) are the two
  `HashMap` folds of `main`; hash maps are modelled as association lists kept in
  insertion order, and where a claim depends on the (arbitrary) iteration order of
  a Rust `HashMap` the theorems quantify over permutations of that order;
* the emission loop is the final `for` loop writing `coin.rs`.

Rust's `char::is_numeric` is modelled as `Char.isDigit`; the two differ only on
non-ASCII numeric characters, which never satisfy `is_ascii_alphanumeric` either,
so every place the distinction could matter already goes through the
irregular-character paths modelled below.
-/

/-- Splits a list of characters on a separator character, keeping empty pieces,
as Rust's `str::split` does. -/
def splitChar (sep : Char) : List Char → List (List Char)
  | [] => [[]]
  | c :: cs =>
    match splitChar sep cs with
    | [] => if c = sep then [[], []] else [[c]]
    | r :: rs => if c = sep then [] :: r :: rs else (c :: r) :: rs

/-- String version of `splitChar`; models `str::split` on a one-character pattern. -/
def splitStr (sep : Char) (s : String) : List String :=
  (splitChar sep s.data).map (fun l => String.mk l)

/-- Models Rust's `str::trim` (drop leading and trailing whitespace). -/
def trimChars (l : List Char) : List Char :=
  ((l.dropWhile Char.isWhitespace).reverse.dropWhile Char.isWhitespace).reverse

/-- Models Rust's `str::trim` on `String`. -/
def trimStr (s : String) : String :=
  String.mk (trimChars s.data)

/-- Accumulates a list of decimal digits into a number (most significant first). -/
def digitsToNat (l : List Char) : Nat :=
  l.foldl (fun acc c => acc * 10 + (c.toNat - 48)) 0

/-- Models `str::parse::<u32>`: an optional leading `+`, then one or more ASCII
digits, value below `2 ^ 32`. -/
def parseU32 (s : String) : Option Nat :=
  let l := match s.data with
    | '+' :: rest => rest
    | l => l
  if l ≠ [] ∧ l.all Char.isDigit then
    let n := digitsToNat l
    if n < 4294967296 then some n else none
  else none

/-- The record type of the generator (struct `CoinType` in `parse_coins.rs`). -/
structure CoinType where
  id : Nat
  ids : List Nat
  path_component : String
  symbol : Option String
  name : String
  original_name : String
  rustdoc_lines : List String
deriving DecidableEq, Repr

/-- Does the string start with a digit? (`name.starts_with(char::is_numeric)`). -/
def startsWithDigit (s : String) : Bool :=
  match s.data with
  | [] => false
  | c :: _ => c.isDigit

/-- `fn prepend_enum`: prefix an underscore when the name starts with a digit. -/
def prepend_enum (name : String) : String :=
  if startsWithDigit name then "_" ++ name else name

/-- The direct name mappings of `original_name_to_short` (`Ether` → `Ethereum`,
`EtherClassic` → `EthereumClassic`, all other names unchanged). -/
def directMap (name : String) : String :=
  if name = "Ether" then "Ethereum"
  else if name = "EtherClassic" then "EthereumClassic"
  else name

/-- The special-character override pairs of `original_name_to_short`, one per
arm of its `match` on irregular names. -/
def specialPairs : List (String × String) :=
  [("Pl^g", "Plug"),
   ("BitcoinMatteo'sVision", "BitcoinMatteosVision"),
   ("Crypto.orgChain", "CryptoOrgChain"),
   ("Cocos-BCX", "CocosBCX"),
   ("Capricoin+", "CapricoinPlus"),
   ("Seele-N", "SeeleN"),
   ("IQ-Cash", "IQCash"),
   ("XinFin.Network", "XinFinNetwork"),
   ("Unit-e", "UnitE"),
   ("HARMONY-ONE", "HarmonyOne"),
   ("ThePower.io", "ThePower"),
   ("evan.network", "EvanNetwork"),
   ("Ether-1", "EtherOne"),
   ("æternity", "aeternity"),
   ("θ", "Theta")]

/-- The special-character override table of `original_name_to_short`: the first
matching arm wins (the arms are pairwise distinct literals, so any arm). -/
def specialTable (name : String) : Option String :=
  (specialPairs.find? (fun p => p.1 == name)).map (fun p => p.2)

/-- Steps 1 and 2 of `original_name_to_short`: remove all spaces
(`replace(' ', "")`) and truncate at the first `(` (`split_once('(')`). -/
def cleanedBase (original_name : String) : String :=
  String.mk ((original_name.data.filter (fun c => c ≠ ' ')).takeWhile (fun c => c ≠ '('))

/-- `fn original_name_to_short`: remove spaces, truncate at the first `(`,
prefix an underscore for a leading digit, apply the direct mappings, and handle
irregular characters through the closed override table. -/
def original_name_to_short (original_name : String) : Except String String :=
  let name := prepend_enum (cleanedBase original_name)
  if name.data.any (fun ch => !(ch.isAlphanum || ch = '_')) then
    match specialTable name with
    | some n => Except.ok n
    | none => Except.error ("unknown original coin name `" ++ name ++ "`")
  else Except.ok (directMap name)

/-- Construction of the `symbol` field from the raw symbol cell
(`Some(columns[3].trim()).map(prepend_enum).map(..$DAG..).filter(non-empty)`). -/
def buildSymbol (cell : String) : Option String :=
  ((((some (trimStr cell)).map prepend_enum).map
      (fun symbol => if symbol = "$DAG" then "DAG" else symbol)).filter
    (fun symbol => symbol ≠ ""))

/-- The fixed header line marking the start of the data table. -/
def SLIP_044_MARKDOWN_HEADER : String :=
  "| Coin type  | Path component (`coin_type'`) | Symbol  | Coin                              |"

/-- The `filter_map` body of `main`: split a line into cells, demand six of
them, reject empty or `reserved` display names, normalize the name, parse the
id, and build the record. -/
def parseLine (line : String) : Option CoinType :=
  let columns := splitStr '|' line
  if columns.length = 6 then
    let original_name := trimStr (columns.getD 4 "")
    if original_name = "" ∨ original_name = "reserved" then none
    else
      match original_name_to_short original_name with
      | Except.error _ => none
      | Except.ok name =>
        match parseU32 (trimStr (columns.getD 1 "")) with
        | none => none
        | some id =>
          some { id := id
                 ids := []
                 path_component := trimStr (columns.getD 2 "")
                 symbol := buildSymbol (columns.getD 3 "")
                 name := name
                 original_name := original_name
                 rustdoc_lines := [] }
  else none

/-- The Row Extractor: skip to the header line, drop it and the separator row,
then parse every remaining line. -/
def extractRows (markdown : String) : List CoinType :=
  ((((splitStr '\n' markdown).dropWhile
      (fun line => line ≠ SLIP_044_MARKDOWN_HEADER)).drop 2).filterMap parseLine)

/-- The composite merge key of Pass A: `(symbol, name, original_name)`. -/
def keyOf (c : CoinType) : Option String × String × String :=
  (c.symbol, c.name, c.original_name)

/-- One step of the Pass A fold:
`acc.entry(key).or_insert(coin_type).ids.push(id)` on an association list. -/
def upsertA (acc : List ((Option String × String × String) × CoinType))
    (c : CoinType) : List ((Option String × String × String) × CoinType) :=
  match acc with
  | [] => [(keyOf c, { c with ids := c.ids ++ [c.id] })]
  | (k, r) :: rest =>
    if k = keyOf c then (k, { r with ids := r.ids ++ [c.id] }) :: rest
    else (k, r) :: upsertA rest c

/-- Pass A (identity merge): fold all records into a map keyed by `keyOf`,
pushing each record's id into its representative. -/
def passA (cs : List CoinType) : List CoinType :=
  (cs.foldl upsertA []).map (fun p => p.2)

/-- One step of the Pass B grouping fold: push the record into the bucket of
its `name`. -/
def upsertG (acc : List (String × List CoinType)) (c : CoinType) :
    List (String × List CoinType) :=
  match acc with
  | [] => [(c.name, [c])]
  | (n, g) :: rest =>
    if n = c.name then (n, g ++ [c]) :: rest
    else (n, g) :: upsertG rest c

/-- Pass B grouping: group the merged records by `name` alone. -/
def groupByName (cs : List CoinType) : List (String × List CoinType) :=
  cs.foldl upsertG []

/-- The disambiguation suffix: the symbol when present, otherwise the
`_`-joined decimal ids. -/
def suffixOf (c : CoinType) : String :=
  match c.symbol with
  | some symbol => symbol
  | none => String.intercalate "_" (c.ids.map toString)

/-- The Pass B rename: `format!("{name}_{suffix}")` for a colliding record. -/
def renameCoin (c : CoinType) : CoinType :=
  { c with name := c.name ++ "_" ++ suffixOf c }

/-- The Doc Annotator: the three rustdoc lines attached before emission. -/
def annotate (c : CoinType) : CoinType :=
  { c with rustdoc_lines :=
    [ "/// Coin type: " ++ String.intercalate ", " (c.ids.map toString),
      match c.symbol with
      | some symbol => "/// Symbol: " ++ symbol
      | none => "",
      "/// Coin: " ++ c.original_name ] }

/-- Pass B proper: rename every member of a group of size above one, then
annotate, then flatten. -/
def passB (gs : List (String × List CoinType)) : List CoinType :=
  gs.flatMap (fun g =>
    (if 1 < g.2.length then g.2.map renameCoin else g.2).map annotate)

/-- `fn escape_rust_string`: strip `@ ^ ' " \ $`, then keep only the
allow-listed characters. -/
def escape_rust_string (s : String) : String :=
  String.mk ((((((((s.data.filter (fun c => c ≠ '@')).filter
    (fun c => c ≠ '^')).filter (fun c => c ≠ '\'')).filter
    (fun c => c ≠ '"')).filter (fun c => c ≠ '\\')).filter
    (fun c => c ≠ '$')).filter (fun c =>
      c.isAlphanum || c = '_' || c = ' ' || c = '-' || c = '+' || c = '.' ||
        c = '(' || c = ')')))

/-- The escaped symbol of a record, as precomputed by the emission loop. -/
def escSym (c : CoinType) : Option String :=
  c.symbol.map escape_rust_string

/-- The symbol slots written by the emission loop: for each record, the bare
symbol-identifier slot and the quoted symbol-alias slot, threading the
`seen_symbols` set. -/
def emitRecs : List String → List CoinType → List (String × String)
  | _, [] => []
  | seen, c :: cs =>
    match escSym c with
    | none => ("", "") :: emitRecs seen cs
    | some s =>
      if seen.contains s then ("", "\"" ++ s ++ "\"") :: emitRecs seen cs
      else (s, "") :: emitRecs (s :: seen) cs

/-- One emitted table entry, following the `writeln!` format string of the
emission loop. -/
def coinEntry (c : CoinType) (bareSym aliasSym : String) : String :=
  "    (\n        " ++
    String.intercalate "\n        " (c.rustdoc_lines.filter (fun s => s ≠ "")) ++
    "\n        [" ++ String.intercalate "," (c.ids.map toString) ++ "], " ++
    c.name ++ ", \"" ++ escape_rust_string c.original_name ++ "\", " ++
    bareSym ++ ", " ++ aliasSym ++ ",\n    ),"

/-- All emitted table entries for a record list, with the symbol slots computed
by `emitRecs`. -/
def emitCoins (seen : List String) (cs : List CoinType) : List String :=
  List.zipWith (fun c p => coinEntry c p.1 p.2) cs (emitRecs seen cs)

/-- The sort relation of the emission loop (`sorted_by_key(|c| c.id)`). -/
def idLe (a b : CoinType) : Prop := a.id ≤ b.id

instance : DecidableRel idLe := fun a b => Nat.decLe a.id b.id

/-- The generated file text produced from a Pass B group list: sort by the
record's id field, emit every entry, and wrap in the fixed prologue and
epilogue lines. -/
def emitFrom (gs : List (String × List CoinType)) : String :=
  String.intercalate "\n"
    (["// Code generated by src/bin/parse_coins.rs; DO NOT EDIT.",
      "use crate::coins;",
      "coins!("] ++
      emitCoins [] (List.insertionSort idLe (passB gs)) ++
      [");"]) ++ "\n"

/-- The final sorted record list consumed by the emission loop (hash-map
iteration taken in insertion order). -/
def sortedCoins (markdown : String) : List CoinType :=
  List.insertionSort idLe (passB (groupByName (passA (extractRows markdown))))

/-- The full pipeline output (hash-map iteration taken in insertion order). -/
def outputText (markdown : String) : String :=
  emitFrom (groupByName (passA (extractRows markdown)))

/-- The identifier grammar of the generated table: non-empty, first character
an ASCII letter or underscore, remaining characters ASCII alphanumeric or
underscore. -/
def isValidIdent (s : String) : Bool :=
  match s.data with
  | [] => false
  | c :: cs => (c.isAlpha || c = '_') && cs.all (fun ch => ch.isAlphanum || ch = '_')

/-- Erases the `path_component` field (for the noninterference claim). -/
def erasePath (c : CoinType) : CoinType :=
  { c with path_component := "" }

/-- The minimum registration id of a record (over the id field and the ids
list). -/
def minIds (c : CoinType) : Nat :=
  c.ids.foldr Nat.min c.id

/-- A default record, used only as the `List.getD` fallback. -/
def cdef : CoinType :=
  { id := 0, ids := [], path_component := "", symbol := none, name := "",
    original_name := "", rustdoc_lines := [] }

/-- A generic markdown separator row (discarded by the Row Extractor). -/
def mdSep : String := "| --- | --- | --- | --- |"

/-- Builds a small markdown document: header, separator, then the given rows. -/
def mkMd (rows : List String) : String :=
  String.intercalate "\n" (SLIP_044_MARKDOWN_HEADER :: mdSep :: rows)

/-- Two distinct display names normalizing to `Foo`, sharing symbol `S`. -/
def c1md : String := mkMd ["| 1 | p | S | Fo o |", "| 2 | p | S | Foo |"]

/-- The Bitcoin scenario row: id 0, symbol `₿`. -/
def c2md : String := mkMd ["| 0 | 0x80000000 | ₿ | Bitcoin |"]

/-- A display name that normalizes to the empty string. -/
def c3md : String := mkMd ["| 1 | p | S | (x) |"]

/-- Two rows of one coin registered under ids 5 and 3, in that order. -/
def c4md : String := mkMd ["| 5 | p | S | Foo |", "| 3 | p | S | Foo |"]

/-- The rows of `c4md` plus an unrelated coin with id 4. -/
def c5md : String :=
  mkMd ["| 5 | p | S | Foo |", "| 3 | p | S | Foo |", "| 4 | q | T | Bar |"]

/-- Two distinct coins sharing the registration id 7. -/
def c6md : String := mkMd ["| 7 | p | A | X |", "| 7 | p | B | Y |"]

/-- Two coins whose distinct symbols escape to the same string `A`. -/
def c8md : String := mkMd ["| 1 | p | A$ | X |", "| 2 | p | A | Y |"]

/-- Two distinct coins sharing the registration id 7 (for the determinism
counterexample). -/
def c9md : String := mkMd ["| 7 | p | A | X |", "| 7 | p | B | Y |"]

/-- Two coins with distinct ids (for the determinism witness). -/
def c9wmd : String := mkMd ["| 2 | p | A | X |", "| 1 | p | B | Y |"]

/-- A document that differs from `c10md2` only in the path-component cell. -/
def c10md1 : String := mkMd ["| 1 | aaa | S | Foo |"]

/-- A document that differs from `c10md1` only in the path-component cell. -/
def c10md2 : String := mkMd ["| 1 | bbb | S | Foo |"]

/-- Association-list lookup for the Pass A map. -/
def lookupA (k : Option String × String × String)
    (acc : List ((Option String × String × String) × CoinType)) : Option CoinType :=
  (acc.find? (fun q => decide (q.1 = k))).map (fun q => q.2)

/-- Association-list lookup for the Pass B grouping map. -/
def lookupG (n : String) (acc : List (String × List CoinType)) : Option (List CoinType) :=
  (acc.find? (fun q => decide (q.1 = n))).map (fun q => q.2)

/-- The effect of Pass B on one record of the merged list `l`: rename iff the
record's name-group in `l` has more than one member, then annotate. -/
def passBElem (l : List CoinType) (c : CoinType) : CoinType :=
  annotate (if 1 < (l.filter (fun d => decide (d.name = c.name))).length then renameCoin c else c)

/-! ### Generic helper lemmas -/

theorem string_append_cancel_left {a b c : String} (h : a ++ b = a ++ c) : b = c := by
  have hd : (a ++ b).data = (a ++ c).data := by rw [h]
  rw [String.data_append, String.data_append] at hd
  exact String.ext (List.append_cancel_left hd)

theorem specialTable_valid (n m : String) (h : specialTable n = some m) :
    isValidIdent m = true := by
  unfold specialTable at h
  rcases Option.map_eq_some'.mp h with ⟨p, hp, hpm⟩
  have hmem : p ∈ specialPairs := List.mem_of_find?_eq_some hp
  subst hpm
  have hval : ∀ q ∈ specialPairs, isValidIdent q.2 = true := by decide
  exact hval p hmem

/-! ### C3: the identifier grammar of normalized names -/

/-- Names that pass the irregular-character check and the direct mappings are
valid identifiers whenever non-empty. -/
theorem clean_name_valid (b : String)
    (hall : ∀ ch ∈ (prepend_enum b).data, (ch.isAlphanum || ch = '_') = true)
    (hne : directMap (prepend_enum b) ≠ "") :
    isValidIdent (directMap (prepend_enum b)) = true := by
  by_cases h1 : prepend_enum b = "Ether"
  · simp only [directMap]; rw [if_pos h1]; decide
  · by_cases h2e : prepend_enum b = "EtherClassic"
    · simp only [directMap]; rw [if_neg h1, if_pos h2e]; decide
    · simp only [directMap] at hne ⊢
      rw [if_neg h1, if_neg h2e] at hne ⊢
      unfold prepend_enum at hall hne ⊢
      by_cases hd : startsWithDigit b = true
      · rw [if_pos hd] at hall hne ⊢
        have hdata : ("_" ++ b).data = '_' :: b.data := by
          rw [String.data_append]; rfl
        simp only [isValidIdent, hdata]
        rw [Bool.and_eq_true]
        constructor
        · decide
        · exact List.all_eq_true.mpr
            (fun x hx => hall x (by rw [hdata]; exact List.mem_cons_of_mem _ hx))
      · rw [if_neg hd] at hall hne ⊢
        cases hb : b.data with
        | nil => exact absurd (String.ext hb) hne
        | cons c cs =>
          simp only [isValidIdent, hb]
          rw [Bool.and_eq_true]
          have hc : (c.isAlphanum || c = '_') = true :=
            hall c (by rw [hb]; exact List.mem_cons_self _ _)
          have hcd : c.isDigit = false := by
            unfold startsWithDigit at hd
            rw [hb] at hd
            simpa using hd
          constructor
          · rcases Bool.or_eq_true_iff.mp hc with h3 | h3
            · have hca : c.isAlpha = true := by
                have h4 : (c.isAlpha || c.isDigit) = true := h3
                rw [hcd] at h4
                simpa using h4
              simp [hca]
            · simp [h3]
          · exact List.all_eq_true.mpr
              (fun x hx => hall x (by rw [hb]; exact List.mem_cons_of_mem _ hx))

/-- C3 (amended): every name accepted by the Normalizer matches the identifier
grammar provided it is non-empty. (The claim as stated fails: a display name
whose space-stripped form starts with `(` normalizes to the empty string, and a
Pass B suffix drawn from a symbol may contain out-of-grammar characters.) -/
theorem C3_name_grammar (o n : String) (h : original_name_to_short o = Except.ok n)
    (hne : n ≠ "") : isValidIdent n = true := by
  unfold original_name_to_short at h
  by_cases hirr :
      (prepend_enum (cleanedBase o)).data.any (fun ch => !(ch.isAlphanum || ch = '_')) = true
  · rw [if_pos hirr] at h
    cases hst : specialTable (prepend_enum (cleanedBase o)) with
    | some m => rw [hst] at h; injection h with h2; subst h2; exact specialTable_valid _ _ hst
    | none => rw [hst] at h; exact Except.noConfusion h
  · rw [if_neg hirr] at h
    injection h with h2
    have hall : ∀ ch ∈ (prepend_enum (cleanedBase o)).data, (ch.isAlphanum || ch = '_') = true := by
      intro ch hch
      by_contra hbad
      exact hirr (List.any_eq_true.mpr ⟨ch, hch, by simp [hbad]⟩)
    subst h2
    exact clean_name_valid (cleanedBase o) hall hne

/-- C3 witness: the name `Bitcoin` is accepted unchanged and is a valid
identifier. -/
theorem C3_name_grammar_witness : isValidIdent "Bitcoin" = true :=
  C3_name_grammar "Bitcoin" "Bitcoin" rfl (by decide)

/-- C3 counterexample: the display name `(x)` is accepted (non-empty, not
`reserved`) yet normalizes to the empty string, so the emitted record's name
violates the identifier grammar. -/
theorem C3_counterexample :
    (sortedCoins c3md).map (fun c => c.name) = [""] ∧ isValidIdent "" = false := by
  constructor
  · decide
  · decide

/-! ### C1: Pass B disambiguation -/

/-- C1 (amended): within a Pass B collision group (records sharing a
normalized name), the rewritten names are distinct exactly when the
disambiguation suffixes are distinct. Full pairwise distinctness does not hold
for every input: two distinct coins sharing both normalized name and symbol
receive identical suffixes, hence identical names. -/
theorem C1_rename_names (c d : CoinType) (h : c.name = d.name) :
    ((renameCoin c).name = (renameCoin d).name) ↔ suffixOf c = suffixOf d := by
  show c.name ++ "_" ++ suffixOf c = d.name ++ "_" ++ suffixOf d ↔ _
  rw [h]
  constructor
  · intro he
    exact string_append_cancel_left he
  · intro he
    rw [he]

/-- C1 witness: two colliding records with distinct symbols get distinct
names. -/
theorem C1_rename_names_witness :
    ((renameCoin { cdef with name := "Foo", symbol := some "S" }).name =
        (renameCoin { cdef with name := "Foo", symbol := some "T" }).name) ↔
      suffixOf { cdef with name := "Foo", symbol := some "S" } =
        suffixOf { cdef with name := "Foo", symbol := some "T" } :=
  C1_rename_names _ _ rfl

/-- C1 counterexample: the display names `Fo o` and `Foo` are distinct coins
that normalize to the same name `Foo` and share symbol `S`; Pass B renames
both to `Foo_S`, so the emitted names are not pairwise distinct. -/
theorem C1_counterexample :
    (sortedCoins c1md).map (fun c => c.name) = ["Foo_S", "Foo_S"] ∧
      ¬ (sortedCoins c1md).Pairwise (fun a b => a.name ≠ b.name) := by
  constructor
  · decide
  · intro h
    have h3 : (sortedCoins c1md).map (fun c => c.name) = ["Foo_S", "Foo_S"] := by decide
    have h4 : List.Pairwise (fun a b : String => a ≠ b)
        ((sortedCoins c1md).map (fun c => c.name)) :=
      (@List.pairwise_map CoinType String (fun c => c.name)
        (fun a b => a ≠ b) (sortedCoins c1md)).mpr h
    rw [h3] at h4
    exact (List.pairwise_cons.mp h4).1 _ (List.mem_cons_self _ _) rfl

/-! ### C2: symbol cleaning -/

/-- C2 (amended): a present symbol is never the empty string (the builder
filters empty symbols into `none`), and in the Bitcoin scenario the symbol
`₿` survives cleaning as a *present* symbol `some "₿"` at the record level —
it is only the emission-time escaping that empties both symbol slots. The
symbol cell receives no irregular-character override handling. -/
theorem C2_symbol_cleaning :
    (∀ cell s, buildSymbol cell = some s → s ≠ "") ∧
    (sortedCoins c2md).map (fun c => (c.name, c.ids, c.symbol)) =
      [("Bitcoin", [0], some "₿")] ∧
    emitRecs [] (sortedCoins c2md) = [("", "")] := by
  refine ⟨?_, by decide, by decide⟩
  intro cell s h
  unfold buildSymbol at h
  rcases Option.filter_eq_some.mp h with ⟨hmem, hpred⟩
  simpa using hpred

/-- C2 witness: the cleaned symbol `S` is present and non-empty. -/
theorem C2_symbol_cleaning_witness : ("S" : String) ≠ "" :=
  C2_symbol_cleaning.1 "S" "S" rfl

/-- C2 counterexample: the claim asserts the symbol `₿` is empty after
cleaning and therefore represented as absent; in the code it survives cleaning
untouched and the record's symbol is `some "₿"`, not `none`. -/
theorem C2_counterexample : buildSymbol "₿" = some "₿" ∧ buildSymbol "₿" ≠ none := by
  constructor
  · decide
  · decide

/-! ### C7: Pass A applied to its own output -/

theorem upsertA_of_not_mem (acc : List ((Option String × String × String) × CoinType))
    (c : CoinType) (h : keyOf c ∉ acc.map (fun p => p.1)) :
    upsertA acc c = acc ++ [(keyOf c, { c with ids := c.ids ++ [c.id] })] := by
  induction acc with
  | nil => rfl
  | cons p rest ih =>
    obtain ⟨k, r⟩ := p
    simp only [List.map_cons, List.mem_cons] at h
    push_neg at h
    obtain ⟨h1, h2⟩ := h
    simp only [upsertA]
    rw [if_neg (fun hh => h1 hh.symm)]
    rw [ih h2]
    simp

theorem foldA_append_of_nodup (cs : List CoinType) :
    ∀ acc, (∀ c ∈ cs, keyOf c ∉ acc.map (fun p => p.1)) → (cs.map keyOf).Nodup →
    cs.foldl upsertA acc =
      acc ++ cs.map (fun c => (keyOf c, { c with ids := c.ids ++ [c.id] })) := by
  induction cs with
  | nil => intro acc _ _; simp
  | cons c cs ih =>
    intro acc hdisj hnd
    rw [List.foldl_cons, upsertA_of_not_mem acc c (hdisj c (List.mem_cons_self _ _))]
    rw [List.map_cons] at hnd
    rw [ih _ ?_ (List.nodup_cons.mp hnd).2]
    · simp
    · intro d hd
      rw [List.map_append]
      simp only [List.mem_append, List.map_cons]
      push_neg
      refine ⟨hdisj d (List.mem_cons_of_mem _ hd), ?_⟩
      simp only [List.map_nil, List.mem_singleton]
      intro hk
      exact (List.nodup_cons.mp hnd).1 (hk ▸ List.mem_map_of_mem keyOf hd)

theorem upsertA_key_eq (acc : List ((Option String × String × String) × CoinType))
    (c : CoinType) (h : ∀ p ∈ acc, keyOf p.2 = p.1) :
    ∀ p ∈ upsertA acc c, keyOf p.2 = p.1 := by
  induction acc with
  | nil =>
    intro p hp
    simp only [upsertA, List.mem_singleton] at hp
    subst hp
    rfl
  | cons q rest ih =>
    obtain ⟨k, r⟩ := q
    intro p hp
    simp only [upsertA] at hp
    by_cases hk : k = keyOf c
    · rw [if_pos hk] at hp
      rcases List.mem_cons.mp hp with hp | hp
      · subst hp
        exact h (k, r) (List.mem_cons_self _ _)
      · exact h p (List.mem_cons_of_mem _ hp)
    · rw [if_neg hk] at hp
      rcases List.mem_cons.mp hp with hp | hp
      · subst hp
        exact h (k, r) (List.mem_cons_self _ _)
      · exact ih (fun q hq => h q (List.mem_cons_of_mem _ hq)) p hp

theorem foldA_key_eq (cs : List CoinType) :
    ∀ acc, (∀ p ∈ acc, keyOf p.2 = p.1) → ∀ p ∈ cs.foldl upsertA acc, keyOf p.2 = p.1 := by
  induction cs with
  | nil => intro acc h; exact h
  | cons c cs ih =>
    intro acc h
    rw [List.foldl_cons]
    exact ih _ (upsertA_key_eq acc c h)

theorem upsertA_keys (acc : List ((Option String × String × String) × CoinType))
    (c : CoinType) :
    (upsertA acc c).map (fun p => p.1) =
      if keyOf c ∈ acc.map (fun p => p.1) then acc.map (fun p => p.1)
      else acc.map (fun p => p.1) ++ [keyOf c] := by
  induction acc with
  | nil => simp [upsertA]
  | cons q rest ih =>
    obtain ⟨k, r⟩ := q
    simp only [upsertA]
    by_cases hk : k = keyOf c
    · rw [if_pos hk]
      have hm : keyOf c ∈ (((k, r) :: rest).map (fun p => p.1)) := by
        simp [hk.symm]
      rw [if_pos hm]
      simp
    · rw [if_neg hk]
      by_cases hm : keyOf c ∈ rest.map (fun p => p.1)
      · have hm2 : keyOf c ∈ (((k, r) :: rest).map (fun p => p.1)) := by
          simp [List.mem_cons, hm]
        rw [if_pos hm2]
        simp only [List.map_cons, ih]
        rw [if_pos hm]
      · have hm2 : keyOf c ∉ (((k, r) :: rest).map (fun p => p.1)) := by
          simp only [List.map_cons, List.mem_cons]
          push_neg
          exact ⟨fun hh => hk hh.symm, hm⟩
        rw [if_neg hm2]
        simp only [List.map_cons, ih]
        rw [if_neg hm]
        simp

theorem foldA_keys_nodup (cs : List CoinType) :
    ∀ acc, ((acc.map (fun p => p.1)).Nodup) →
    (((cs.foldl upsertA acc).map (fun p => p.1)).Nodup) := by
  induction cs with
  | nil => intro acc h; exact h
  | cons c cs ih =>
    intro acc h
    rw [List.foldl_cons]
    apply ih
    rw [upsertA_keys]
    by_cases hm : keyOf c ∈ acc.map (fun p => p.1)
    · rw [if_pos hm]; exact h
    · rw [if_neg hm]
      rw [List.nodup_append]
      exact ⟨h, List.nodup_singleton _, by simpa using hm⟩

theorem passA_map_keyOf (cs : List CoinType) :
    (passA cs).map keyOf = (cs.foldl upsertA []).map (fun p => p.1) := by
  unfold passA
  rw [List.map_map]
  exact List.map_congr_left (fun p hp => foldA_key_eq cs [] (by simp) p hp)

theorem passA_eq_map_of_nodup (l : List CoinType) (h : (l.map keyOf).Nodup) :
    passA l = l.map (fun c => { c with ids := c.ids ++ [c.id] }) := by
  unfold passA
  rw [foldA_append_of_nodup l [] (by simp) h]
  simp [List.map_map]

/-- C7 (amended): a second application of Pass A to its own output performs no
further merging — the output has one record per record of the input, with key
and id unchanged — but it is not the identity: the fold pushes each record's
first-seen id onto its `ids` again. Pass A is therefore not literally
idempotent. -/
theorem C7_passA_twice (cs : List CoinType) :
    passA (passA cs) = (passA cs).map (fun c => { c with ids := c.ids ++ [c.id] }) :=
  passA_eq_map_of_nodup _ (by rw [passA_map_keyOf]; exact foldA_keys_nodup cs [] (by simp))

/-- C7 counterexample: re-running Pass A on its own output changes the `ids`
of the merged `Foo` record (from `[5, 3]` to `[5, 3, 5]`), so Pass A is not
idempotent as claimed. -/
theorem C7_counterexample :
    passA (passA (extractRows c4md)) ≠ passA (extractRows c4md) ∧
      (passA (passA (extractRows c4md))).map (fun c => c.ids) = [[5, 3, 5]] := by
  constructor
  · decide
  · decide

/-! ### Pass A: lookup characterization -/

theorem assoc_find_of_mem {κ ν : Type} [DecidableEq κ] (acc : List (κ × ν))
    (hnd : (acc.map (fun p => p.1)).Nodup) (p : κ × ν) (hp : p ∈ acc) :
    (acc.find? (fun q => decide (q.1 = p.1))).map (fun q => q.2) = some p.2 := by
  induction acc with
  | nil => cases hp
  | cons q rest ih =>
    rcases List.mem_cons.mp hp with hh | hh
    · subst hh
      rw [List.find?_cons_of_pos _ (by simp)]
      rfl
    · have hq : q.1 ≠ p.1 := by
        intro he
        rw [List.map_cons] at hnd
        exact (List.nodup_cons.mp hnd).1 (he ▸ List.mem_map_of_mem (fun p => p.1) hh)
      rw [List.find?_cons_of_neg _ (by simpa using hq)]
      have hnd' : (rest.map (fun p => p.1)).Nodup := by
        rw [List.map_cons] at hnd
        exact (List.nodup_cons.mp hnd).2
      exact ih hnd' hh

theorem upsertA_lookup (acc : List ((Option String × String × String) × CoinType))
    (c : CoinType) (k : Option String × String × String) :
    lookupA k (upsertA acc c) =
      if keyOf c = k then
        match lookupA k acc with
        | some r => some { r with ids := r.ids ++ [c.id] }
        | none => some { c with ids := c.ids ++ [c.id] }
      else lookupA k acc := by
  induction acc with
  | nil =>
    by_cases hk : keyOf c = k
    · rw [if_pos hk]
      unfold lookupA upsertA
      rw [List.find?_cons_of_pos _ (by simp [hk])]
      rfl
    · rw [if_neg hk]
      unfold lookupA upsertA
      rw [List.find?_cons_of_neg _ (by simpa using hk)]
  | cons q rest ih =>
    obtain ⟨k0, r0⟩ := q
    simp only [upsertA]
    by_cases h0 : k0 = keyOf c
    · rw [if_pos h0]
      by_cases hk : k0 = k
      · rw [if_pos (h0.symm.trans hk)]
        unfold lookupA
        rw [List.find?_cons_of_pos _ (by simp [hk]),
          List.find?_cons_of_pos _ (by simp [hk])]
        rfl
      · rw [if_neg (fun he => hk (h0.trans he))]
        unfold lookupA
        rw [List.find?_cons_of_neg _ (by simpa using hk),
          List.find?_cons_of_neg _ (by simpa using hk)]
    · rw [if_neg h0]
      by_cases hk0 : k0 = k
      · have hck : ¬ (keyOf c = k) := fun he => h0 (by rw [hk0, he])
        rw [if_neg hck]
        unfold lookupA
        rw [List.find?_cons_of_pos _ (by simp [hk0]),
          List.find?_cons_of_pos _ (by simp [hk0])]
      · unfold lookupA
        rw [List.find?_cons_of_neg _ (by simpa using hk0),
          List.find?_cons_of_neg _ (by simpa using hk0)]
        simpa [lookupA] using ih

theorem foldA_lookup_some (cs : List CoinType) (k : Option String × String × String) :
    ∀ acc r, lookupA k acc = some r →
    lookupA k (cs.foldl upsertA acc) =
      some { r with ids := r.ids ++ (cs.filter (fun d => decide (keyOf d = k))).map (fun d => d.id) } := by
  induction cs with
  | nil =>
    intro acc r h
    simpa using h
  | cons c cs ih =>
    intro acc r h
    rw [List.foldl_cons]
    by_cases hck : keyOf c = k
    · have h2 : lookupA k (upsertA acc c) = some { r with ids := r.ids ++ [c.id] } := by
        rw [upsertA_lookup, if_pos hck, h]
      have h3 := ih _ _ h2
      rw [h3, List.filter_cons_of_pos (by simpa using hck)]
      simp [List.append_assoc]
    · have h2 : lookupA k (upsertA acc c) = some r := by
        rw [upsertA_lookup, if_neg hck]
        exact h
      rw [ih _ _ h2, List.filter_cons_of_neg (by simpa using hck)]

theorem foldA_lookup_none (cs : List CoinType) (hrow : ∀ c ∈ cs, c.ids = [])
    (k : Option String × String × String) :
    ∀ acc, lookupA k acc = none →
    lookupA k (cs.foldl upsertA acc) =
      (cs.find? (fun d => decide (keyOf d = k))).map
        (fun d1 => { d1 with ids := (cs.filter (fun d => decide (keyOf d = k))).map (fun d => d.id) }) := by
  induction cs with
  | nil =>
    intro acc h
    simpa using h
  | cons c cs ih =>
    intro acc h
    rw [List.foldl_cons]
    by_cases hck : keyOf c = k
    · have h2 : lookupA k (upsertA acc c) = some { c with ids := c.ids ++ [c.id] } := by
        rw [upsertA_lookup, if_pos hck, h]
      have hcids : c.ids = [] := hrow c (List.mem_cons_self _ _)
      rw [hcids] at h2
      have h3 := foldA_lookup_some cs k _ _ h2
      rw [h3, List.find?_cons_of_pos _ (by simpa using hck),
        List.filter_cons_of_pos (by simpa using hck)]
      simp
    · have h2 : lookupA k (upsertA acc c) = none := by
        rw [upsertA_lookup, if_neg hck]
        exact h
      rw [ih (fun d hd => hrow d (List.mem_cons_of_mem _ hd)) _ h2,
        List.find?_cons_of_neg _ (by simpa using hck),
        List.filter_cons_of_neg (by simpa using hck)]

/-- Every Pass A record collects exactly the ids of the accepted rows sharing
its composite key, in input (first-seen) order. -/
theorem passA_ids (cs : List CoinType) (hrow : ∀ c ∈ cs, c.ids = []) :
    ∀ c ∈ passA cs,
      c.ids = (cs.filter (fun d => decide (keyOf d = keyOf c))).map (fun d => d.id) := by
  intro c hc
  obtain ⟨p, hp, hpc⟩ := List.mem_map.mp hc
  have hkey : keyOf p.2 = p.1 := foldA_key_eq cs [] (by simp) p hp
  have hnd : ((cs.foldl upsertA []).map (fun q => q.1)).Nodup := foldA_keys_nodup cs [] (by simp)
  have hl : lookupA p.1 (cs.foldl upsertA []) = some p.2 := assoc_find_of_mem _ hnd p hp
  have h0 := foldA_lookup_none cs hrow p.1 [] rfl
  rw [hl] at h0
  cases hf : cs.find? (fun d => decide (keyOf d = p.1)) with
  | none => rw [hf] at h0; exact absurd h0 (by simp)
  | some d1 =>
    rw [hf] at h0
    simp only [Option.map_some'] at h0
    have h1 : p.2 = { d1 with ids := (cs.filter (fun d => decide (keyOf d = p.1))).map (fun d => d.id) } := by
      injection h0
    subst hpc
    rw [hkey, h1]

/-! ### Pass A: invariants, id fields and id multiset -/

theorem upsertA_pres (P : CoinType → Prop)
    (acc : List ((Option String × String × String) × CoinType)) (c : CoinType)
    (hacc : ∀ p ∈ acc, P p.2)
    (hupd : ∀ r, P r → P { r with ids := r.ids ++ [c.id] })
    (hnew : P { c with ids := c.ids ++ [c.id] }) :
    ∀ p ∈ upsertA acc c, P p.2 := by
  induction acc with
  | nil =>
    intro p hp
    simp only [upsertA, List.mem_singleton] at hp
    subst hp
    exact hnew
  | cons q rest ih =>
    obtain ⟨k0, r0⟩ := q
    intro p hp
    simp only [upsertA] at hp
    by_cases h0 : k0 = keyOf c
    · rw [if_pos h0] at hp
      rcases List.mem_cons.mp hp with hp | hp
      · subst hp
        exact hupd r0 (hacc (k0, r0) (List.mem_cons_self _ _))
      · exact hacc p (List.mem_cons_of_mem _ hp)
    · rw [if_neg h0] at hp
      rcases List.mem_cons.mp hp with hp | hp
      · subst hp
        exact hacc (k0, r0) (List.mem_cons_self _ _)
      · exact ih (fun q hq => hacc q (List.mem_cons_of_mem _ hq)) p hp

theorem foldA_pres (P : CoinType → Prop) (cs : List CoinType) :
    ∀ acc, (∀ p ∈ acc, P p.2) →
    (∀ r id0, P r → P { r with ids := r.ids ++ [id0] }) →
    (∀ c ∈ cs, P { c with ids := c.ids ++ [c.id] }) →
    ∀ p ∈ cs.foldl upsertA acc, P p.2 := by
  induction cs with
  | nil => intro acc hacc _ _; exact hacc
  | cons c cs ih =>
    intro acc hacc hupd hnew
    rw [List.foldl_cons]
    exact ih _ (upsertA_pres P acc c hacc (fun r hr => hupd r c.id hr)
        (hnew c (List.mem_cons_self _ _)))
      hupd (fun d hd => hnew d (List.mem_cons_of_mem _ hd))

/-- Every Pass A record's `id` field is the first element of its `ids` list
(the first-seen registration id). -/
theorem passA_head (cs : List CoinType) (hrow : ∀ c ∈ cs, c.ids = []) :
    ∀ c ∈ passA cs, c.ids.head? = some c.id := by
  intro c hc
  obtain ⟨p, hp, hpc⟩ := List.mem_map.mp hc
  subst hpc
  refine foldA_pres (fun r => r.ids.head? = some r.id) cs [] (by simp) ?_ ?_ p hp
  · intro r id0 hr
    show (r.ids ++ [id0]).head? = some r.id
    cases hri : r.ids with
    | nil => rw [hri] at hr; cases hr
    | cons x xs => rw [hri] at hr; simpa using hr
  · intro d hd
    show (d.ids ++ [d.id]).head? = some d.id
    rw [hrow d hd]
    rfl

theorem upsertA_map_id (acc : List ((Option String × String × String) × CoinType))
    (c : CoinType) :
    (upsertA acc c).map (fun p => p.2.id) = acc.map (fun p => p.2.id) ∨
    (upsertA acc c).map (fun p => p.2.id) = acc.map (fun p => p.2.id) ++ [c.id] := by
  induction acc with
  | nil => right; rfl
  | cons q rest ih =>
    obtain ⟨k0, r0⟩ := q
    simp only [upsertA]
    by_cases h0 : k0 = keyOf c
    · rw [if_pos h0]
      left
      rfl
    · rw [if_neg h0]
      rcases ih with ih | ih
      · left
        simp only [List.map_cons, ih]
      · right
        simp only [List.map_cons, ih]
        exact (List.cons_append _ _ _).symm

theorem foldA_ids_sublist (cs : List CoinType) :
    ∀ acc, ((cs.foldl upsertA acc).map (fun p => p.2.id)).Sublist
      (acc.map (fun p => p.2.id) ++ cs.map (fun c => c.id)) := by
  induction cs with
  | nil => intro acc; simp
  | cons c cs ih =>
    intro acc
    rw [List.foldl_cons]
    have h1 := ih (upsertA acc c)
    rcases upsertA_map_id acc c with h2 | h2
    · rw [h2] at h1
      refine h1.trans ?_
      rw [List.map_cons]
      exact List.Sublist.append_left (List.sublist_cons_self _ _) _
    · rw [h2] at h1
      rw [List.append_assoc, List.singleton_append] at h1
      rw [List.map_cons]
      exact h1

/-- Distinct accepted row ids give distinct Pass A record id fields. -/
theorem passA_id_nodup (cs : List CoinType) (h : (cs.map (fun c => c.id)).Nodup) :
    ((passA cs).map (fun c => c.id)).Nodup := by
  have h1 : (passA cs).map (fun c => c.id) = (cs.foldl upsertA []).map (fun p => p.2.id) := by
    unfold passA
    rw [List.map_map]
    rfl
  rw [h1]
  exact List.Nodup.sublist (by simpa using foldA_ids_sublist cs []) h

theorem upsertA_flat_ids (acc : List ((Option String × String × String) × CoinType))
    (c : CoinType) (hc : c.ids = []) :
    ((upsertA acc c).flatMap (fun p => p.2.ids)).Perm
      ((acc.flatMap (fun p => p.2.ids)) ++ [c.id]) := by
  induction acc with
  | nil =>
    simp [upsertA, hc]
  | cons q rest ih =>
    obtain ⟨k0, r0⟩ := q
    simp only [upsertA]
    by_cases h0 : k0 = keyOf c
    · rw [if_pos h0]
      simp only [List.flatMap_cons]
      rw [List.append_assoc]
      have h1 : (r0.ids ++ ([c.id] ++ rest.flatMap (fun p => p.2.ids))).Perm
          (r0.ids ++ (rest.flatMap (fun p => p.2.ids) ++ [c.id])) :=
        List.Perm.append_left _ (by
          simpa using (List.perm_append_singleton c.id (rest.flatMap (fun p => p.2.ids))).symm)
      refine h1.trans ?_
      rw [← List.append_assoc]
    · rw [if_neg h0]
      simp only [List.flatMap_cons]
      have h1 := List.Perm.append_left r0.ids ih
      refine h1.trans ?_
      rw [← List.append_assoc]

theorem foldA_flat_ids (cs : List CoinType) (hrow : ∀ c ∈ cs, c.ids = []) :
    ∀ acc, ((cs.foldl upsertA acc).flatMap (fun p => p.2.ids)).Perm
      ((acc.flatMap (fun p => p.2.ids)) ++ cs.map (fun c => c.id)) := by
  induction cs with
  | nil => intro acc; simp
  | cons c cs ih =>
    intro acc
    rw [List.foldl_cons]
    have h1 := ih (fun d hd => hrow d (List.mem_cons_of_mem _ hd)) (upsertA acc c)
    have h2 := upsertA_flat_ids acc c (hrow c (List.mem_cons_self _ _))
    refine h1.trans ?_
    have h3 := List.Perm.append_right (cs.map (fun c => c.id)) h2
    refine h3.trans ?_
    rw [List.map_cons, List.append_assoc]
    rfl

/-- The ids of all Pass A records are exactly the accepted row ids (as a
multiset). -/
theorem passA_flat_ids (cs : List CoinType) (hrow : ∀ c ∈ cs, c.ids = []) :
    ((passA cs).flatMap (fun c => c.ids)).Perm (cs.map (fun c => c.id)) := by
  have h1 : (passA cs).flatMap (fun c => c.ids) =
      (cs.foldl upsertA []).flatMap (fun p => p.2.ids) := by
    unfold passA
    rw [List.flatMap_def, List.flatMap_def, List.map_map]
    rfl
  rw [h1]
  simpa using foldA_flat_ids cs hrow []

/-! ### Pass B grouping: flatten permutation and bucket contents -/

theorem flatMap_congr {α β : Type} {l : List α} {f g : α → List β}
    (h : ∀ a ∈ l, f a = g a) : l.flatMap f = l.flatMap g := by
  induction l with
  | nil => rfl
  | cons a l ih =>
    simp only [List.flatMap_cons]
    rw [h a (List.mem_cons_self _ _), ih (fun b hb => h b (List.mem_cons_of_mem _ hb))]

theorem flatMap_map_eq {α β γ : Type} (l : List α) (f : α → β) (g : β → List γ) :
    (l.map f).flatMap g = l.flatMap (fun a => g (f a)) := by
  rw [List.flatMap_def, List.flatMap_def, List.map_map]
  rfl

theorem map_flatMap_eq {α β γ : Type} (gs : List α) (F : α → List β) (f : β → γ) :
    (gs.flatMap F).map f = gs.flatMap (fun g => (F g).map f) := by
  induction gs with
  | nil => rfl
  | cons g gs ih =>
    simp only [List.flatMap_cons, List.map_append, ih]

theorem upsertG_flat_perm (acc : List (String × List CoinType)) (c : CoinType) :
    ((upsertG acc c).flatMap (fun g => g.2)).Perm ((acc.flatMap (fun g => g.2)) ++ [c]) := by
  induction acc with
  | nil => simp [upsertG]
  | cons q rest ih =>
    obtain ⟨n, g⟩ := q
    simp only [upsertG]
    by_cases hn : n = c.name
    · rw [if_pos hn]
      simp only [List.flatMap_cons]
      rw [List.append_assoc, List.singleton_append]
      refine (List.Perm.append_left g (by
        simpa using (List.perm_append_singleton c (rest.flatMap (fun g => g.2))).symm)).trans ?_
      rw [← List.append_assoc]
    · rw [if_neg hn]
      simp only [List.flatMap_cons]
      refine (List.Perm.append_left g ih).trans ?_
      rw [← List.append_assoc]

theorem foldG_flat_perm (cs : List CoinType) :
    ∀ acc, ((cs.foldl upsertG acc).flatMap (fun g => g.2)).Perm
      ((acc.flatMap (fun g => g.2)) ++ cs) := by
  induction cs with
  | nil => intro acc; simp
  | cons c cs ih =>
    intro acc
    rw [List.foldl_cons]
    refine (ih (upsertG acc c)).trans ?_
    refine (List.Perm.append_right cs (upsertG_flat_perm acc c)).trans ?_
    rw [List.append_assoc, List.singleton_append]

/-- Grouping then flattening the buckets is a permutation of the input. -/
theorem groupBy_flat_perm (cs : List CoinType) :
    ((groupByName cs).flatMap (fun g => g.2)).Perm cs := by
  simpa using foldG_flat_perm cs []

theorem upsertG_lookup (acc : List (String × List CoinType)) (c : CoinType) (n : String) :
    lookupG n (upsertG acc c) =
      if c.name = n then
        match lookupG n acc with
        | some g => some (g ++ [c])
        | none => some [c]
      else lookupG n acc := by
  induction acc with
  | nil =>
    by_cases hk : c.name = n
    · rw [if_pos hk]
      unfold lookupG upsertG
      rw [List.find?_cons_of_pos _ (by simp [hk])]
      rfl
    · rw [if_neg hk]
      unfold lookupG upsertG
      rw [List.find?_cons_of_neg _ (by simpa using hk)]
  | cons q rest ih =>
    obtain ⟨n0, g0⟩ := q
    simp only [upsertG]
    by_cases h0 : n0 = c.name
    · rw [if_pos h0]
      by_cases hk : n0 = n
      · rw [if_pos (h0.symm.trans hk)]
        unfold lookupG
        rw [List.find?_cons_of_pos _ (by simp [hk]),
          List.find?_cons_of_pos _ (by simp [hk])]
        rfl
      · rw [if_neg (fun he => hk (h0.trans he))]
        unfold lookupG
        rw [List.find?_cons_of_neg _ (by simpa using hk),
          List.find?_cons_of_neg _ (by simpa using hk)]
    · rw [if_neg h0]
      by_cases hk0 : n0 = n
      · have hck : ¬ (c.name = n) := fun he => h0 (by rw [hk0, he])
        rw [if_neg hck]
        unfold lookupG
        rw [List.find?_cons_of_pos _ (by simp [hk0]),
          List.find?_cons_of_pos _ (by simp [hk0])]
      · unfold lookupG
        rw [List.find?_cons_of_neg _ (by simpa using hk0),
          List.find?_cons_of_neg _ (by simpa using hk0)]
        simpa [lookupG] using ih

theorem foldG_lookup_some (cs : List CoinType) (n : String) :
    ∀ acc g, lookupG n acc = some g →
    lookupG n (cs.foldl upsertG acc) =
      some (g ++ cs.filter (fun d => decide (d.name = n))) := by
  induction cs with
  | nil =>
    intro acc g h
    simpa using h
  | cons c cs ih =>
    intro acc g h
    rw [List.foldl_cons]
    by_cases hc : c.name = n
    · have h2 : lookupG n (upsertG acc c) = some (g ++ [c]) := by
        rw [upsertG_lookup, if_pos hc, h]
      rw [ih _ _ h2, List.filter_cons_of_pos (by simpa using hc)]
      simp [List.append_assoc]
    · have h2 : lookupG n (upsertG acc c) = some g := by
        rw [upsertG_lookup, if_neg hc]
        exact h
      rw [ih _ _ h2, List.filter_cons_of_neg (by simpa using hc)]

theorem foldG_lookup_none (cs : List CoinType) (n : String) :
    ∀ acc, lookupG n acc = none →
    lookupG n (cs.foldl upsertG acc) =
      if cs.any (fun d => decide (d.name = n)) then
        some (cs.filter (fun d => decide (d.name = n)))
      else none := by
  induction cs with
  | nil =>
    intro acc h
    simpa using h
  | cons c cs ih =>
    intro acc h
    rw [List.foldl_cons]
    by_cases hc : c.name = n
    · have h2 : lookupG n (upsertG acc c) = some [c] := by
        rw [upsertG_lookup, if_pos hc, h]
      rw [foldG_lookup_some cs n _ _ h2, List.filter_cons_of_pos (by simpa using hc)]
      have hany : (c :: cs).any (fun d => decide (d.name = n)) = true := by
        simp [List.any_cons, hc]
      rw [hany]
      simp
    · have h2 : lookupG n (upsertG acc c) = none := by
        rw [upsertG_lookup, if_neg hc]
        exact h
      rw [ih _ h2, List.filter_cons_of_neg (by simpa using hc)]
      have hany : (c :: cs).any (fun d => decide (d.name = n)) =
          cs.any (fun d => decide (d.name = n)) := by
        simp [List.any_cons, hc]
      rw [hany]

theorem upsertG_keys (acc : List (String × List CoinType)) (c : CoinType) :
    (upsertG acc c).map (fun p => p.1) =
      if c.name ∈ acc.map (fun p => p.1) then acc.map (fun p => p.1)
      else acc.map (fun p => p.1) ++ [c.name] := by
  induction acc with
  | nil => simp [upsertG]
  | cons q rest ih =>
    obtain ⟨n0, g0⟩ := q
    simp only [upsertG]
    by_cases h0 : n0 = c.name
    · rw [if_pos h0]
      have hm : c.name ∈ ((n0, g0) :: rest).map (fun p => p.1) := by
        simp [h0.symm]
      rw [if_pos hm]
      simp
    · rw [if_neg h0]
      by_cases hm : c.name ∈ rest.map (fun p => p.1)
      · have hm2 : c.name ∈ ((n0, g0) :: rest).map (fun p => p.1) := by
          simp [List.mem_cons, hm]
        rw [if_pos hm2]
        simp only [List.map_cons, ih]
        rw [if_pos hm]
      · have hm2 : c.name ∉ ((n0, g0) :: rest).map (fun p => p.1) := by
          simp only [List.map_cons, List.mem_cons]
          push_neg
          exact ⟨fun hh => h0 hh.symm, hm⟩
        rw [if_neg hm2]
        simp only [List.map_cons, ih]
        rw [if_neg hm]
        simp

theorem foldG_keys_nodup (cs : List CoinType) :
    ∀ acc, ((acc.map (fun p => p.1)).Nodup) →
    (((cs.foldl upsertG acc).map (fun p => p.1)).Nodup) := by
  induction cs with
  | nil => intro acc h; exact h
  | cons c cs ih =>
    intro acc h
    rw [List.foldl_cons]
    apply ih
    rw [upsertG_keys]
    by_cases hm : c.name ∈ acc.map (fun p => p.1)
    · rw [if_pos hm]; exact h
    · rw [if_neg hm]
      rw [List.nodup_append]
      exact ⟨h, List.nodup_singleton _, by simpa using hm⟩

/-- Every bucket of the Pass B grouping holds exactly the records of its name,
in order. -/
theorem groupBy_bucket (cs : List CoinType) :
    ∀ p ∈ groupByName cs, p.2 = cs.filter (fun d => decide (d.name = p.1)) := by
  intro p hp
  have hnd : ((groupByName cs).map (fun q => q.1)).Nodup := foldG_keys_nodup cs [] (by simp)
  have hl : lookupG p.1 (groupByName cs) = some p.2 := assoc_find_of_mem _ hnd p hp
  have h0 : lookupG p.1 (groupByName cs) =
      if cs.any (fun d => decide (d.name = p.1)) then
        some (cs.filter (fun d => decide (d.name = p.1)))
      else none := foldG_lookup_none cs p.1 [] rfl
  rw [hl] at h0
  by_cases hany : cs.any (fun d => decide (d.name = p.1)) = true
  · rw [if_pos hany] at h0
    injection h0
  · rw [if_neg hany] at h0
    exact absurd h0 (by simp)

/-! ### Pass B characterization and sorting -/

theorem passBElem_id (l : List CoinType) (c : CoinType) : (passBElem l c).id = c.id := by
  unfold passBElem annotate renameCoin
  split <;> rfl

theorem passBElem_ids (l : List CoinType) (c : CoinType) : (passBElem l c).ids = c.ids := by
  unfold passBElem annotate renameCoin
  split <;> rfl

/-- Pass B over the grouped records is, up to permutation, the pointwise
rename-and-annotate of the merged records. -/
theorem passB_char (l : List CoinType) :
    (passB (groupByName l)).Perm (l.map (passBElem l)) := by
  have hstep : ∀ p ∈ groupByName l,
      ((if 1 < p.2.length then p.2.map renameCoin else p.2).map annotate) =
        p.2.map (passBElem l) := by
    intro p hp
    have hbucket : p.2 = l.filter (fun d => decide (d.name = p.1)) := groupBy_bucket l p hp
    have hname : ∀ c ∈ p.2, c.name = p.1 := by
      intro c hc
      rw [hbucket] at hc
      exact of_decide_eq_true (List.mem_filter.mp hc).2
    by_cases hlen : 1 < p.2.length
    · rw [if_pos hlen, List.map_map]
      apply List.map_congr_left
      intro c hc
      show annotate (renameCoin c) = passBElem l c
      unfold passBElem
      rw [hname c hc, ← hbucket, if_pos hlen]
    · rw [if_neg hlen]
      apply List.map_congr_left
      intro c hc
      show annotate c = passBElem l c
      unfold passBElem
      rw [hname c hc, ← hbucket, if_neg hlen]
  unfold passB
  rw [flatMap_congr hstep, ← map_flatMap_eq]
  exact (groupBy_flat_perm l).map _

theorem passBElem_invariant (l l' : List CoinType) (hp : l.Perm l') (c : CoinType) :
    passBElem l c = passBElem l' c := by
  unfold passBElem
  have hcount : (l.filter (fun d => decide (d.name = c.name))).length =
      (l'.filter (fun d => decide (d.name = c.name))).length := by
    rw [← List.countP_eq_length_filter, ← List.countP_eq_length_filter]
    exact hp.countP_eq _
  rw [hcount]

/-- The sort relation is reflexive-transitive-total, and strict sorting by the
id key is rigid: two permuted, sorted lists with pairwise distinct id fields
coincide. -/
theorem sort_eq_of_perm_nodup (l1 l2 : List CoinType) (hp : l1.Perm l2)
    (hnd : (l1.map (fun c => c.id)).Nodup) :
    List.insertionSort idLe l1 = List.insertionSort idLe l2 := by
  haveI : IsTotal CoinType idLe := ⟨fun a b => Nat.le_total a.id b.id⟩
  haveI : IsTrans CoinType idLe := ⟨fun a b c h1 h2 => Nat.le_trans h1 h2⟩
  haveI : IsAntisymm CoinType (fun a b : CoinType => a.id < b.id) :=
    ⟨fun a b h1 h2 => absurd h2 (Nat.lt_asymm h1)⟩
  have hperm : (List.insertionSort idLe l1).Perm (List.insertionSort idLe l2) :=
    ((List.perm_insertionSort idLe l1).trans hp).trans (List.perm_insertionSort idLe l2).symm
  have hstrict : ∀ l : List CoinType, (l.map (fun c => c.id)).Nodup →
      List.Sorted (fun a b : CoinType => a.id < b.id) (List.insertionSort idLe l) := by
    intro l hl
    have hs : List.Sorted idLe (List.insertionSort idLe l) := List.sorted_insertionSort idLe l
    have hnds : ((List.insertionSort idLe l).map (fun c => c.id)).Nodup := by
      rw [((List.perm_insertionSort idLe l).map (fun c => c.id)).nodup_iff]
      exact hl
    have hne : List.Pairwise (fun a b : CoinType => a.id ≠ b.id) (List.insertionSort idLe l) :=
      (@List.pairwise_map CoinType Nat (fun c => c.id) (fun a b => a ≠ b)
        (List.insertionSort idLe l)).mp hnds
    exact (List.Pairwise.and hs hne).imp (fun h => lt_of_le_of_ne h.1 h.2)
  have hnd2 : (l2.map (fun c => c.id)).Nodup := by
    rw [← (hp.map (fun c => c.id)).nodup_iff]
    exact hnd
  exact List.eq_of_perm_of_sorted hperm (hstrict l1 hnd) (hstrict l2 hnd2)

/-! ### Row records start with empty ids -/

theorem parseLine_ids (line : String) (c : CoinType) (h : parseLine line = some c) :
    c.ids = [] := by
  simp only [parseLine] at h
  repeat' split at h
  all_goals first
  | exact Option.noConfusion h
  | (injection h with h2; rw [← h2])

theorem extractRows_ids (md : String) : ∀ c ∈ extractRows md, c.ids = [] := by
  intro c hc
  unfold extractRows at hc
  obtain ⟨line, _, hparse⟩ := List.mem_filterMap.mp hc
  exact parseLine_ids line c hparse

/-! ### C4: id lists are kept in first-seen order, never sorted -/

/-- C4 (amended): each Merger record's `ids` collects exactly the ids of the
accepted rows sharing its composite key, in input (first-seen) order, and the
id lists are carried unchanged (up to record ordering) into the emitted,
sorted record list. They are *not* sorted ascending before emission. -/
theorem C4_ids_first_seen (md : String) :
    (∀ c ∈ passA (extractRows md),
      c.ids = ((extractRows md).filter (fun d => decide (keyOf d = keyOf c))).map
        (fun d => d.id)) ∧
    ((sortedCoins md).map (fun c => c.ids)).Perm
      ((passA (extractRows md)).map (fun c => c.ids)) := by
  constructor
  · exact passA_ids _ (extractRows_ids md)
  · have h1 : (sortedCoins md).Perm (passB (groupByName (passA (extractRows md)))) :=
      List.perm_insertionSort idLe _
    refine (h1.map _).trans ?_
    refine ((passB_char _).map _).trans ?_
    rw [List.map_map]
    have hmap : List.map ((fun c => c.ids) ∘ passBElem (passA (extractRows md)))
        (passA (extractRows md)) = List.map (fun c => c.ids) (passA (extractRows md)) := by
      refine List.map_congr_left ?_
      intro c _
      simp [Function.comp, passBElem_ids]
    rw [hmap]

/-- C4 witness: the single accepted Bitcoin row yields a record whose ids are
exactly the ids of the rows sharing its key. -/
theorem C4_ids_first_seen_witness :
    ({ id := 0, ids := [0], path_component := "0x80000000", symbol := some "₿",
       name := "Bitcoin", original_name := "Bitcoin", rustdoc_lines := [] } : CoinType).ids =
      ((extractRows c2md).filter
        (fun d => decide (keyOf d = keyOf
          ({ id := 0, ids := [0], path_component := "0x80000000", symbol := some "₿",
             name := "Bitcoin", original_name := "Bitcoin",
             rustdoc_lines := [] } : CoinType)))).map (fun d => d.id) :=
  (C4_ids_first_seen c2md).1 _ (by decide)

/-- C4 counterexample: the coin `Foo` registered under ids 5 then 3 is emitted
with ids `[5, 3]` — insertion order, not ascending order. -/
theorem C4_counterexample :
    (sortedCoins c4md).map (fun c => c.ids) = [[5, 3]] ∧
      ¬ List.Sorted (fun a b : Nat => a ≤ b) [5, 3] := by
  constructor
  · decide
  · intro hs
    exact absurd (List.rel_of_sorted_cons hs 3 (List.mem_singleton.mpr rfl)) (by decide)

/-! ### C5: emission sorts by the first-seen id, not the minimum id -/

/-- C5 (amended): the emitted records are sorted ascending by the record's
`id` field, which is the *first-seen* id of the record's merge group (the head
of its `ids` list), not necessarily the minimum of `ids`. -/
theorem C5_sorted_by_id (md : String) :
    List.Sorted idLe (sortedCoins md) ∧
      ∀ c ∈ sortedCoins md, c.ids.head? = some c.id := by
  constructor
  · haveI : IsTotal CoinType idLe := ⟨fun a b => Nat.le_total a.id b.id⟩
    haveI : IsTrans CoinType idLe := ⟨fun a b c h1 h2 => Nat.le_trans h1 h2⟩
    exact List.sorted_insertionSort idLe _
  · intro c hc
    have hc2 : c ∈ passB (groupByName (passA (extractRows md))) :=
      (List.perm_insertionSort idLe _).mem_iff.mp hc
    have hc3 : c ∈ (passA (extractRows md)).map (passBElem (passA (extractRows md))) :=
      (passB_char _).mem_iff.mp hc2
    obtain ⟨c0, hc0, hcc⟩ := List.mem_map.mp hc3
    rw [← hcc, passBElem_ids, passBElem_id]
    exact passA_head _ (extractRows_ids md) c0 hc0

/-- C5 witness: the emitted Bitcoin record's first id is its sort key. -/
theorem C5_sorted_by_id_witness :
    ({ id := 0, ids := [0], path_component := "0x80000000", symbol := some "₿",
       name := "Bitcoin", original_name := "Bitcoin",
       rustdoc_lines := ["/// Coin type: 0", "/// Symbol: ₿", "/// Coin: Bitcoin"] } :
      CoinType).ids.head? = some 0 :=
  (C5_sorted_by_id c2md).2 _ (by decide)

/-- C5 counterexample: with rows (id 5, id 3) merging into one coin plus an
unrelated coin with id 4, the emitted order has minimum-ids 4 then 3 — not
ascending by minimum id, because the sort key is the first-seen id 5. -/
theorem C5_counterexample :
    (sortedCoins c5md).map minIds = [4, 3] ∧ ¬ (4 ≤ 3) := by
  constructor
  · decide
  · decide

/-! ### C6: round-trip on ids -/

/-- C6 (amended): the concatenation of `ids` over all emitted records is a
permutation of the accepted rows' id list — no id is dropped and multiplicity
is preserved. Ids appear at most once exactly when the accepted rows' ids are
pairwise distinct; an input registering the same id under two distinct coins
emits that id twice. -/
theorem C6_ids_roundtrip (md : String) :
    ((sortedCoins md).flatMap (fun c => c.ids)).Perm
      ((extractRows md).map (fun c => c.id)) := by
  have h1 : (sortedCoins md).Perm (passB (groupByName (passA (extractRows md)))) :=
    List.perm_insertionSort idLe _
  refine (h1.flatMap_right _).trans ?_
  refine ((passB_char _).flatMap_right _).trans ?_
  rw [flatMap_map_eq]
  rw [flatMap_congr (fun a _ => passBElem_ids (passA (extractRows md)) a :
    ∀ a ∈ passA (extractRows md), (passBElem (passA (extractRows md)) a).ids = a.ids)]
  exact passA_flat_ids _ (extractRows_ids md)

/-- C6 counterexample: two accepted rows both carrying id 7 under distinct
coins produce two records whose ids both contain 7, so an id can occur more
than once across the final records. -/
theorem C6_counterexample :
    (sortedCoins c6md).flatMap (fun c => c.ids) = [7, 7] ∧
      ¬ ((sortedCoins c6md).flatMap (fun c => c.ids)).Nodup := by
  constructor
  · decide
  · decide

/-! ### C9: determinism up to hash-map iteration order -/

/-- C9 (amended): when the accepted rows' ids are pairwise distinct the output
text is a function of the input text alone — any iteration order of the Pass A
hash map (`l1`) and of the Pass B hash map (`gs`) produces the same bytes.
With duplicated ids across distinct coins the stable sort leaves the tie in
hash-iteration order and the output is not reproducible. -/
theorem C9_determinism (md : String) (l1 : List CoinType)
    (gs : List (String × List CoinType))
    (hnd : ((extractRows md).map (fun c => c.id)).Nodup)
    (hl1 : l1.Perm (passA (extractRows md)))
    (hgs : gs.Perm (groupByName l1)) :
    emitFrom gs = outputText md := by
  have hA := passA_id_nodup (extractRows md) hnd
  have h1 : (passB gs).Perm (passB (groupByName l1)) := hgs.flatMap_right _
  have h2 : (passB (groupByName l1)).Perm (l1.map (passBElem l1)) := passB_char l1
  have h3 : l1.map (passBElem l1) = l1.map (passBElem (passA (extractRows md))) :=
    List.map_congr_left (fun c _ => passBElem_invariant _ _ hl1 c)
  have h5 : (passB gs).Perm (passB (groupByName (passA (extractRows md)))) := by
    refine (h1.trans h2).trans ?_
    rw [h3]
    exact (hl1.map _).trans (passB_char _).symm
  have h6 : ((passB (groupByName (passA (extractRows md)))).map (fun c => c.id)).Nodup := by
    rw [((passB_char (passA (extractRows md))).map (fun c => c.id)).nodup_iff, List.map_map]
    have hmap : List.map ((fun c => c.id) ∘ passBElem (passA (extractRows md)))
        (passA (extractRows md)) = List.map (fun c => c.id) (passA (extractRows md)) := by
      refine List.map_congr_left ?_
      intro c _
      simp [Function.comp, passBElem_id]
    rw [hmap]
    exact hA
  have h7 : ((passB gs).map (fun c => c.id)).Nodup := by
    rw [(h5.map (fun c => c.id)).nodup_iff]
    exact h6
  have h8 : List.insertionSort idLe (passB gs) =
      List.insertionSort idLe (passB (groupByName (passA (extractRows md)))) :=
    sort_eq_of_perm_nodup _ _ h5 h7
  show emitFrom gs = emitFrom (groupByName (passA (extractRows md)))
  unfold emitFrom
  rw [h8]

/-- C9 witness: on distinct-id input, reversing the Pass B group order leaves
the output bytes unchanged. -/
theorem C9_determinism_witness :
    emitFrom ((groupByName (passA (extractRows c9wmd))).reverse) = outputText c9wmd :=
  C9_determinism c9wmd (passA (extractRows c9wmd))
    ((groupByName (passA (extractRows c9wmd))).reverse)
    (by decide) (List.Perm.refl _) (List.reverse_perm _)

/-- C9 counterexample: with two distinct coins sharing id 7, a legal hash-map
iteration order (the reversed group list) produces different output bytes, so
the output is not a function of the input text alone. -/
theorem C9_counterexample :
    ((groupByName (passA (extractRows c9md))).reverse).Perm
        (groupByName (passA (extractRows c9md))) ∧
      emitFrom ((groupByName (passA (extractRows c9md))).reverse) ≠ outputText c9md :=
  ⟨List.reverse_perm _, by decide⟩

/-! ### C10: the path-component cell never influences the output -/

theorem upsertA_erase (acc : List ((Option String × String × String) × CoinType))
    (c : CoinType) :
    upsertA (acc.map (fun p => (p.1, erasePath p.2))) (erasePath c) =
      (upsertA acc c).map (fun p => (p.1, erasePath p.2)) := by
  induction acc with
  | nil => rfl
  | cons q rest ih =>
    obtain ⟨k, r⟩ := q
    simp only [List.map_cons, upsertA]
    by_cases hk : k = keyOf c
    · rw [if_pos (show k = keyOf (erasePath c) from hk), if_pos hk]
      rfl
    · rw [if_neg (show ¬ k = keyOf (erasePath c) from hk), if_neg hk]
      rw [List.map_cons, ih]

theorem foldA_erase (cs : List CoinType) :
    ∀ acc, (cs.map erasePath).foldl upsertA (acc.map (fun p => (p.1, erasePath p.2))) =
      (cs.foldl upsertA acc).map (fun p => (p.1, erasePath p.2)) := by
  induction cs with
  | nil => intro acc; rfl
  | cons c cs ih =>
    intro acc
    rw [List.map_cons, List.foldl_cons, List.foldl_cons, upsertA_erase, ih]

theorem passA_erase (cs : List CoinType) :
    passA (cs.map erasePath) = (passA cs).map erasePath := by
  unfold passA
  have h := foldA_erase cs []
  rw [List.map_nil] at h
  rw [h, List.map_map, List.map_map]
  rfl

theorem upsertG_erase (acc : List (String × List CoinType)) (c : CoinType) :
    upsertG (acc.map (fun g => (g.1, g.2.map erasePath))) (erasePath c) =
      (upsertG acc c).map (fun g => (g.1, g.2.map erasePath)) := by
  induction acc with
  | nil => rfl
  | cons q rest ih =>
    obtain ⟨n, g⟩ := q
    simp only [List.map_cons, upsertG]
    by_cases hn : n = c.name
    · rw [if_pos (show n = (erasePath c).name from hn), if_pos hn]
      simp
    · rw [if_neg (show ¬ n = (erasePath c).name from hn), if_neg hn]
      rw [List.map_cons, ih]

theorem foldG_erase (cs : List CoinType) :
    ∀ acc, (cs.map erasePath).foldl upsertG (acc.map (fun g => (g.1, g.2.map erasePath))) =
      (cs.foldl upsertG acc).map (fun g => (g.1, g.2.map erasePath)) := by
  induction cs with
  | nil => intro acc; rfl
  | cons c cs ih =>
    intro acc
    rw [List.map_cons, List.foldl_cons, List.foldl_cons, upsertG_erase, ih]

theorem groupBy_erase (cs : List CoinType) :
    groupByName (cs.map erasePath) = (groupByName cs).map (fun g => (g.1, g.2.map erasePath)) := by
  unfold groupByName
  have h := foldG_erase cs []
  rw [List.map_nil] at h
  exact h

theorem passB_erase (gs : List (String × List CoinType)) :
    passB (gs.map (fun g => (g.1, g.2.map erasePath))) = (passB gs).map erasePath := by
  unfold passB
  rw [flatMap_map_eq, map_flatMap_eq]
  refine flatMap_congr ?_
  intro g _
  show (if 1 < (g.2.map erasePath).length then
        (g.2.map erasePath).map renameCoin else g.2.map erasePath).map annotate =
      ((if 1 < g.2.length then g.2.map renameCoin else g.2).map annotate).map erasePath
  rw [List.length_map]
  by_cases hlen : 1 < g.2.length
  · rw [if_pos hlen, if_pos hlen]
    rw [List.map_map, List.map_map, List.map_map, List.map_map]
    rfl
  · rw [if_neg hlen, if_neg hlen]
    rw [List.map_map, List.map_map]
    rfl

theorem orderedInsert_erase (a : CoinType) (l : List CoinType) :
    List.orderedInsert idLe (erasePath a) (l.map erasePath) =
      (List.orderedInsert idLe a l).map erasePath := by
  induction l with
  | nil => rfl
  | cons b l ih =>
    simp only [List.map_cons, List.orderedInsert]
    by_cases hab : idLe a b
    · rw [if_pos (show idLe (erasePath a) (erasePath b) from hab), if_pos hab]
      rfl
    · rw [if_neg (show ¬ idLe (erasePath a) (erasePath b) from hab), if_neg hab]
      rw [List.map_cons, ih]

theorem insertionSort_erase (l : List CoinType) :
    List.insertionSort idLe (l.map erasePath) = (List.insertionSort idLe l).map erasePath := by
  induction l with
  | nil => rfl
  | cons a l ih =>
    simp only [List.map_cons, List.insertionSort]
    rw [ih, orderedInsert_erase]

theorem emitRecs_erase (cs : List CoinType) :
    ∀ seen, emitRecs seen (cs.map erasePath) = emitRecs seen cs := by
  induction cs with
  | nil => intro seen; rfl
  | cons c cs ih =>
    intro seen
    simp only [List.map_cons]
    unfold emitRecs
    rw [show escSym (erasePath c) = escSym c from rfl]
    cases hesc : escSym c with
    | none =>
      dsimp only
      rw [ih]
    | some s =>
      dsimp only
      by_cases hs : seen.contains s = true
      · rw [if_pos hs, if_pos hs, ih]
      · rw [if_neg hs, if_neg hs, ih]

theorem emitCoins_erase (cs : List CoinType) (seen : List String) :
    emitCoins seen (cs.map erasePath) = emitCoins seen cs := by
  unfold emitCoins
  rw [emitRecs_erase, List.zipWith_map_left]
  rfl

/-- The whole pipeline output from built records is unchanged when every
record's `path_component` is erased: no later stage reads it. -/
theorem outFromRows_erase (rows : List CoinType) :
    emitFrom (groupByName (passA (rows.map erasePath))) =
      emitFrom (groupByName (passA rows)) := by
  rw [passA_erase, groupBy_erase]
  unfold emitFrom
  rw [passB_erase, insertionSort_erase, emitCoins_erase]

/-- C10 (confirmed): two input texts whose accepted rows agree except in the
path-component cell produce byte-identical generated output. -/
theorem C10_path_noninterference (md1 md2 : String)
    (h : (extractRows md1).map erasePath = (extractRows md2).map erasePath) :
    outputText md1 = outputText md2 := by
  have k : ∀ md : String,
      outputText md = emitFrom (groupByName (passA ((extractRows md).map erasePath))) := by
    intro md
    exact (outFromRows_erase (extractRows md)).symm
  rw [k md1, k md2, h]

/-- C10 witness: two concrete documents differing only in the path-component
cell produce identical output. -/
theorem C10_path_noninterference_witness : outputText c10md1 = outputText c10md2 :=
  C10_path_noninterference c10md1 c10md2 (by decide)

/-! ### C8: the symbol-slot uniqueness rule of the emission loop -/

theorem emitRecs_getD (cs : List CoinType) :
    ∀ (seen : List String) (j : Nat), j < cs.length →
    (escSym (cs.getD j cdef) = none → (emitRecs seen cs).getD j ("", "") = ("", "")) ∧
    (∀ s, escSym (cs.getD j cdef) = some s →
      (((s ∈ seen ∨ ∃ d ∈ cs.take j, escSym d = some s) →
        (emitRecs seen cs).getD j ("", "") = ("", "\"" ++ s ++ "\"")) ∧
       ((¬ (s ∈ seen ∨ ∃ d ∈ cs.take j, escSym d = some s)) →
        (emitRecs seen cs).getD j ("", "") = (s, "")))) := by
  induction cs with
  | nil => intro seen j hj; exact absurd hj (Nat.not_lt_zero j)
  | cons c cs ih =>
    intro seen j hj
    cases hesc : escSym c with
    | none =>
      have hrec : emitRecs seen (c :: cs) = ("", "") :: emitRecs seen cs := by
        simp only [emitRecs]
        rw [hesc]
      cases j with
      | zero =>
        constructor
        · intro _
          rw [hrec]
          rfl
        · intro s hs
          rw [List.getD_cons_zero, hesc] at hs
          exact absurd hs (by simp)
      | succ j =>
        have hj' : j < cs.length := Nat.lt_of_succ_lt_succ hj
        have htake : (c :: cs).take (j + 1) = c :: cs.take j := List.take_succ_cons
        have hgd : (c :: cs).getD (j + 1) cdef = cs.getD j cdef := List.getD_cons_succ
        have hsl : (emitRecs seen (c :: cs)).getD (j + 1) ("", "") =
            (emitRecs seen cs).getD j ("", "") := by
          rw [hrec]
          exact List.getD_cons_succ
        have ihj := ih seen j hj'
        constructor
        · intro hn
          rw [hgd] at hn
          rw [hsl]
          exact ihj.1 hn
        · intro s hs
          rw [hgd] at hs
          have hiff : (s ∈ seen ∨ ∃ d ∈ (c :: cs).take (j + 1), escSym d = some s) ↔
              (s ∈ seen ∨ ∃ d ∈ cs.take j, escSym d = some s) := by
            rw [htake]
            constructor
            · rintro (h | ⟨d, hd, hde⟩)
              · exact Or.inl h
              · rcases List.mem_cons.mp hd with rfl | hd
                · rw [hesc] at hde
                  exact absurd hde (by simp)
                · exact Or.inr ⟨d, hd, hde⟩
            · rintro (h | ⟨d, hd, hde⟩)
              · exact Or.inl h
              · exact Or.inr ⟨d, List.mem_cons_of_mem _ hd, hde⟩
          constructor
          · intro hc
            rw [hsl]
            exact (ihj.2 s hs).1 (hiff.mp hc)
          · intro hc
            rw [hsl]
            exact (ihj.2 s hs).2 (fun hx => hc (hiff.mpr hx))
    | some t =>
      by_cases hseen : seen.contains t = true
      · have hrec : emitRecs seen (c :: cs) = ("", "\"" ++ t ++ "\"") :: emitRecs seen cs := by
          simp only [emitRecs]
          rw [hesc]
          dsimp only
          rw [if_pos hseen]
        cases j with
        | zero =>
          constructor
          · intro hn
            rw [List.getD_cons_zero, hesc] at hn
            exact absurd hn (by simp)
          · intro s hs
            rw [List.getD_cons_zero, hesc] at hs
            have hst : t = s := by injection hs
            subst hst
            constructor
            · intro _
              rw [hrec]
              rfl
            · intro hc
              exact absurd (Or.inl (List.elem_iff.mp hseen)) hc
        | succ j =>
          have hj' : j < cs.length := Nat.lt_of_succ_lt_succ hj
          have htake : (c :: cs).take (j + 1) = c :: cs.take j := List.take_succ_cons
          have hgd : (c :: cs).getD (j + 1) cdef = cs.getD j cdef := List.getD_cons_succ
          have hsl : (emitRecs seen (c :: cs)).getD (j + 1) ("", "") =
              (emitRecs seen cs).getD j ("", "") := by
            rw [hrec]
            exact List.getD_cons_succ
          have ihj := ih seen j hj'
          constructor
          · intro hn
            rw [hgd] at hn
            rw [hsl]
            exact ihj.1 hn
          · intro s hs
            rw [hgd] at hs
            have hiff : (s ∈ seen ∨ ∃ d ∈ (c :: cs).take (j + 1), escSym d = some s) ↔
                (s ∈ seen ∨ ∃ d ∈ cs.take j, escSym d = some s) := by
              rw [htake]
              constructor
              · rintro (h | ⟨d, hd, hde⟩)
                · exact Or.inl h
                · rcases List.mem_cons.mp hd with rfl | hd
                  · rw [hesc] at hde
                    have hts : t = s := by injection hde
                    subst hts
                    exact Or.inl (List.elem_iff.mp hseen)
                  · exact Or.inr ⟨d, hd, hde⟩
              · rintro (h | ⟨d, hd, hde⟩)
                · exact Or.inl h
                · exact Or.inr ⟨d, List.mem_cons_of_mem _ hd, hde⟩
            constructor
            · intro hc
              rw [hsl]
              exact (ihj.2 s hs).1 (hiff.mp hc)
            · intro hc
              rw [hsl]
              exact (ihj.2 s hs).2 (fun hx => hc (hiff.mpr hx))
      · have hrec : emitRecs seen (c :: cs) = (t, "") :: emitRecs (t :: seen) cs := by
          simp only [emitRecs]
          rw [hesc]
          dsimp only
          rw [if_neg hseen]
        cases j with
        | zero =>
          constructor
          · intro hn
            rw [List.getD_cons_zero, hesc] at hn
            exact absurd hn (by simp)
          · intro s hs
            rw [List.getD_cons_zero, hesc] at hs
            have hst : t = s := by injection hs
            subst hst
            constructor
            · intro hc
              rcases hc with hc | ⟨d, hd, _⟩
              · exact absurd (List.elem_iff.mpr hc) hseen
              · simp at hd
            · intro _
              rw [hrec]
              rfl
        | succ j =>
          have hj' : j < cs.length := Nat.lt_of_succ_lt_succ hj
          have htake : (c :: cs).take (j + 1) = c :: cs.take j := List.take_succ_cons
          have hgd : (c :: cs).getD (j + 1) cdef = cs.getD j cdef := List.getD_cons_succ
          have hsl : (emitRecs seen (c :: cs)).getD (j + 1) ("", "") =
              (emitRecs (t :: seen) cs).getD j ("", "") := by
            rw [hrec]
            exact List.getD_cons_succ
          have ihj := ih (t :: seen) j hj'
          constructor
          · intro hn
            rw [hgd] at hn
            rw [hsl]
            exact ihj.1 hn
          · intro s hs
            rw [hgd] at hs
            have hiff : (s ∈ seen ∨ ∃ d ∈ (c :: cs).take (j + 1), escSym d = some s) ↔
                (s ∈ t :: seen ∨ ∃ d ∈ cs.take j, escSym d = some s) := by
              rw [htake]
              constructor
              · rintro (h | ⟨d, hd, hde⟩)
                · exact Or.inl (List.mem_cons_of_mem _ h)
                · rcases List.mem_cons.mp hd with rfl | hd
                  · rw [hesc] at hde
                    have hts : t = s := by injection hde
                    subst hts
                    exact Or.inl (List.mem_cons_self _ _)
                  · exact Or.inr ⟨d, hd, hde⟩
              · rintro (h | ⟨d, hd, hde⟩)
                · rcases List.mem_cons.mp h with rfl | h
                  · exact Or.inr ⟨c, List.mem_cons_self _ _, hesc⟩
                  · exact Or.inl h
                · exact Or.inr ⟨d, List.mem_cons_of_mem _ hd, hde⟩
            constructor
            · intro hc
              rw [hsl]
              exact (ihj.2 s hs).1 (hiff.mp hc)
            · intro hc
              rw [hsl]
              exact (ihj.2 s hs).2 (fun hx => hc (hiff.mpr hx))

theorem emitRecs_bare_nodup (cs : List CoinType) :
    ∀ seen : List String,
    ((((emitRecs seen cs).map (fun p => p.1)).filter (fun s => decide (s ≠ ""))).Nodup) ∧
    (∀ s ∈ ((emitRecs seen cs).map (fun p => p.1)).filter (fun s => decide (s ≠ "")),
      s ∉ seen) := by
  induction cs with
  | nil =>
    intro seen
    refine ⟨?_, ?_⟩
    · simp [emitRecs]
    · intro s hsin
      simp [emitRecs] at hsin
  | cons c cs ih =>
    intro seen
    cases hesc : escSym c with
    | none =>
      have hrec : emitRecs seen (c :: cs) = ("", "") :: emitRecs seen cs := by
        simp only [emitRecs]
        rw [hesc]
      rw [hrec, List.map_cons, List.filter_cons_of_neg (by simp)]
      exact ih seen
    | some t =>
      by_cases hseen : seen.contains t = true
      · have hrec : emitRecs seen (c :: cs) = ("", "\"" ++ t ++ "\"") :: emitRecs seen cs := by
          simp only [emitRecs]
          rw [hesc]
          dsimp only
          rw [if_pos hseen]
        rw [hrec, List.map_cons, List.filter_cons_of_neg (by simp)]
        exact ih seen
      · have hrec : emitRecs seen (c :: cs) = (t, "") :: emitRecs (t :: seen) cs := by
          simp only [emitRecs]
          rw [hesc]
          dsimp only
          rw [if_neg hseen]
        rw [hrec, List.map_cons]
        by_cases hte : t = ""
        · rw [List.filter_cons_of_neg (by simp [hte])]
          refine ⟨(ih (t :: seen)).1, ?_⟩
          intro s hsin hmem
          exact (ih (t :: seen)).2 s hsin (List.mem_cons_of_mem _ hmem)
        · rw [List.filter_cons_of_pos (by simp [hte])]
          refine ⟨?_, ?_⟩
          · rw [List.nodup_cons]
            exact ⟨fun hmem => (ih (t :: seen)).2 t hmem (List.mem_cons_self _ _),
              (ih (t :: seen)).1⟩
          · intro s hsin
            rcases List.mem_cons.mp hsin with rfl | hsin
            · intro hmem
              exact hseen (List.elem_iff.mpr hmem)
            · intro hmem
              exact (ih (t :: seen)).2 s hsin (List.mem_cons_of_mem _ hmem)

/-- C8 (amended): the emission rule operates on the *escaped* symbol. No two
entries write the same non-empty escaped symbol in the bare-identifier slot;
a record whose escaped symbol already occurred earlier writes an empty
identifier slot and the quoted escaped symbol as alias; a record whose escaped
symbol has no earlier occurrence writes it bare with an empty alias slot. Two
distinct record-level symbols that escape to the same string share one bare
occurrence, so the rule does not hold per record-level symbol value. -/
theorem C8_symbol_slots (md : String) :
    ((((emitRecs [] (sortedCoins md)).map (fun p => p.1)).filter
      (fun s => decide (s ≠ ""))).Nodup) ∧
    (∀ j, j < (sortedCoins md).length →
      (escSym ((sortedCoins md).getD j cdef) = none →
        (emitRecs [] (sortedCoins md)).getD j ("", "") = ("", "")) ∧
      (∀ s, escSym ((sortedCoins md).getD j cdef) = some s →
        (((∃ d ∈ (sortedCoins md).take j, escSym d = some s) →
          (emitRecs [] (sortedCoins md)).getD j ("", "") = ("", "\"" ++ s ++ "\"")) ∧
         ((¬ ∃ d ∈ (sortedCoins md).take j, escSym d = some s) →
          (emitRecs [] (sortedCoins md)).getD j ("", "") = (s, ""))))) := by
  constructor
  · exact (emitRecs_bare_nodup (sortedCoins md) []).1
  · intro j hj
    have h := emitRecs_getD (sortedCoins md) [] j hj
    refine ⟨h.1, ?_⟩
    intro s hs
    have h2 := h.2 s hs
    constructor
    · intro hex
      exact h2.1 (Or.inr hex)
    · intro hnex
      refine h2.2 ?_
      rintro (hx | hx)
      · simp at hx
      · exact hnex hx

/-- C8 witness: in the two-coin document whose symbols escape to the same
string, the second record writes the quoted alias. -/
theorem C8_symbol_slots_witness :
    (emitRecs [] (sortedCoins c8md)).getD 1 ("", "") = ("", "\"" ++ "A" ++ "\"") :=
  (((C8_symbol_slots c8md).2 1 (by decide)).2 "A" (by decide)).1 (by decide)

/-- C8 counterexample: record 2 is the only record carrying the symbol `A`,
yet it writes the alias slot, because record 1's symbol `A$` escaped to the
same string `A` and claimed the bare identifier first. The first-record rule
fails at the record-symbol level. -/
theorem C8_counterexample :
    (sortedCoins c8md).map (fun c => c.symbol) = [some "A$", some "A"] ∧
      emitRecs [] (sortedCoins c8md) = [("A", ""), ("", "\"A\"")] := by
  constructor
  · decide
  · decide
